import Mathlib

/-
  Verification development for the TSP-on-grid objective function and the
  Shoot-and-Go heuristic demonstrated by the notebook
  `20170313_Travelling_Salesman_Problem.ipynb`.  The Python classes
  `TSPGrid` and `ShootAndGo` that the notebook imports live in source files
  that are not part of this tree, so their operations are modelled from the
  specification and anchored on the literal inputs and outputs recorded in
  the notebook cells.
-/

namespace TSPGrid

/-- Modelled from the spec: the validity contract on encoded solutions for a
problem with `n` cities (`src/objfun.py`, class `TSPGrid`, is not part of
this tree).  A valid `x` has length `n - 1` and component `i` in the
inclusive range `[0, n-2-i]` (stated additively to avoid truncated
subtraction: `x[i] + i + 2 ≤ n`). -/
def validX (n : Nat) (x : List Nat) : Prop :=
  x.length = n - 1 ∧ ∀ i < x.length, x.getD i 0 + i + 2 ≤ n

instance (n : Nat) (x : List Nat) : Decidable (validX n x) := by
  unfold validX; infer_instance

/-- Per-position bounds of an encoded vector relative to the length `m` of the
current remaining-city list: the first component must index into a list of
length `m`, the next into a list of length `m - 1`, and so on. -/
def ValidFor : List Nat → Nat → Prop
  | [], _ => True
  | i :: xs, m => i < m ∧ ValidFor xs (m - 1)

instance instDecValidFor : ∀ (x : List Nat) (m : Nat), Decidable (ValidFor x m)
  | [], _ => isTrue trivial
  | i :: xs, m => @instDecidableAnd (i < m) (ValidFor xs (m - 1)) _ (instDecValidFor xs (m - 1))

/-- Modelled from the spec: the Lehmer-code decoding core of
`TSPGrid.decode` (`src/objfun.py` is not part of this tree).  Walking the
encoded digits, each step selects the element at position `x[i]` of the
remaining-city list, appends it to the tour and removes it from the list;
an out-of-range digit fails (`none`) rather than being clamped. -/
def decodeFrom : List Nat → List Nat → Option (List Nat)
  | [], _ => some []
  | i :: xs, rem =>
    if h : i < rem.length then
      match decodeFrom xs (rem.eraseIdx i) with
      | none => none
      | some t => some (rem.get ⟨i, h⟩ :: t)
    else none

/-- Modelled from the spec: `TSPGrid.decode` (`src/objfun.py` is not part of
this tree).  The tour starts with city `0`; the remaining cities
`1, …, n-1` are consumed in the order dictated by the digits of `x`.  A
vector of the wrong length or with an out-of-domain component fails with
`none` (out-of-range condition). -/
def decode (n : Nat) (x : List Nat) : Option (List Nat) :=
  if x.length = n - 1 then (decodeFrom x (List.range' 1 (n - 1))).map (fun t => 0 :: t)
  else none

/-- Modelled from the spec: the fixed linearization of city indices to grid
coordinates for a grid with `B` columns per row: city `c` sits at row
`c / B`, column `c % B`.  `dist2` is the squared Euclidean distance between
two cities' coordinates. -/
def dist2 (B c1 c2 : Nat) : Int :=
  ((c1 / B : Nat) - (c2 / B : Nat) : Int) ^ 2 + ((c1 % B : Nat) - (c2 % B : Nat) : Int) ^ 2

/-- Euclidean distance between two cities on the grid. -/
noncomputable def cityDist (B c1 c2 : Nat) : ℝ :=
  Real.sqrt ((dist2 B c1 c2 : Int) : ℝ)

/-- Length of the path that starts at city `c` and then visits the listed
cities in order. -/
noncomputable def pathLen (B : Nat) : Nat → List Nat → ℝ
  | _, [] => 0
  | c, c2 :: rest => cityDist B c c2 + pathLen B c2 rest

/-- Closed-tour length: the path length through the tour plus the closing
edge from the last city back to the first. -/
noncomputable def tourLen (B : Nat) : List Nat → ℝ
  | [] => 0
  | c :: rest => pathLen B c (rest ++ [c])

/-- Modelled from the spec: `TSPGrid.evaluate` (`src/objfun.py` is not part
of this tree): decode `x` to a tour and return its closed-tour Euclidean
length; an invalid `x` propagates the out-of-range failure of `decode`. -/
noncomputable def evaluate (A B : Nat) (x : List Nat) : Option ℝ :=
  (decode (A * B) x).map (tourLen B)

/-- Modelled from the spec: `TSPGrid.get_neighborhood` (`src/objfun.py` is
not part of this tree).  For each position `i` in ascending order, the
candidate with `x[i]` decremented by `d` and then the candidate with `x[i]`
incremented by `d` are produced, discarding any candidate whose modified
value falls outside `[0, n-2-i]`; an invalid `x` fails with an out-of-range
condition. -/
def get_neighborhood (n : Nat) (x : List Nat) (d : Nat) : Option (List (List Nat)) :=
  if validX n x then
    some ((List.range x.length).flatMap fun i =>
      (if d ≤ x.getD i 0 then [x.set i (x.getD i 0 - d)] else []) ++
      (if x.getD i 0 + d + i + 2 ≤ n then [x.set i (x.getD i 0 + d)] else []))
  else none

/-- Modelled from the spec: `TSPGrid.generate_point` (`src/objfun.py` is not
part of this tree): position `i` receives a value drawn uniformly from
`[0, n-2-i]`; the underlying random source is made explicit as a stream
`u` of naturals, reduced into the valid range, so a uniform source yields
a uniform component. -/
def generate_point (n : Nat) (u : Nat → Nat) : List Nat :=
  (List.range (n - 1)).map fun i => u i % (n - 1 - i)

/-- All valid encoded vectors for a remaining-city count `m`, enumerated with
position `0` outermost. -/
def allVectors : Nat → List (List Nat)
  | 0 => [[]]
  | m + 1 => (List.range (m + 1)).flatMap fun v => (allVectors m).map fun y => v :: y

end TSPGrid

namespace ShootAndGo

/-- Modelled from the spec: the generic objective-function interface that the
Shoot-and-Go heuristic operates against (`src/heur.py` is not part of this
tree).  `gen k` is the `k`-th random point produced by the generator
(randomness made explicit as a stream, consumed in a fixed order), `eval`
the objective value, `nbhd x` the neighborhood of `x` in generation order,
and `fstar` the known optimal value used for the early stop exhibited by
the notebook run (`neval = 140` with `maxeval = 1000`). -/
structure Objective (v : Type) where
  gen : Nat → List Nat
  eval : List Nat → v
  nbhd : List Nat → List (List Nat)
  fstar : v

/-- Search state owned by one `search()` invocation: evaluations consumed,
the best point/value pair seen so far, and (as ghost instrumentation for
the monotonicity property) the history of `best_y` after each evaluation,
newest entry first. -/
structure SGState (v : Type) where
  neval : Nat
  best : Option (List Nat × v)
  trace : List v

/-- Strict-improvement update of a best-so-far pair: a tie keeps the pair
that was encountered first. -/
def updBest {v : Type} [LinearOrder v] : Option (List Nat × v) → List Nat × v → List Nat × v
  | none, p => p
  | some (bx, b), (x, y) => if y < b then (x, y) else (bx, b)

/-- First-minimizer selection: fold `updBest` over the candidates in
generation order, starting from no candidate. -/
def selectFirst {v : Type} [LinearOrder v] (l : List (List Nat × v)) : Option (List Nat × v) :=
  l.foldl (fun acc p => some (updBest acc p)) none

/-- Modelled from the spec: one evaluation of the heuristic (`src/heur.py`
is not part of this tree): consume one unit of budget, update the global
best (strict improvement, so ties keep the earlier point), and report
whether the search must stop, either because the budget is now exhausted or
because the point reaches the known optimum value `fstar`. -/
def evalOnce {v : Type} [LinearOrder v] (o : Objective v) (me : Nat) (s : SGState v)
    (x : List Nat) : SGState v × v × Bool :=
  let y := o.eval x
  let b := updBest s.best (x, y)
  (⟨s.neval + 1, some b, b.2 :: s.trace⟩, y,
    decide (y ≤ o.fstar) || decide (me ≤ s.neval + 1))

/-- Modelled from the spec: the neighbor scan of one descent round: evaluate
the neighbors in generation order, keeping the round best (`updBest`, first
minimizer on ties) and stopping immediately, even mid-round, when an
evaluation triggers a stop. -/
def evalNbrs {v : Type} [LinearOrder v] (o : Objective v) (me : Nat) :
    SGState v → List (List Nat) → Option (List Nat × v) →
    SGState v × Option (List Nat × v) × Bool
  | s, [], acc => (s, acc, false)
  | s, xn :: rest, acc =>
    let r := evalOnce o me s xn
    let acc' := some (updBest acc (xn, r.2.1))
    if r.2.2 then (r.1, acc', true) else evalNbrs o me r.1 rest acc'

/-- Modelled from the spec: greedy local descent with depth limit `hmax`:
each round scans the neighborhood of the current point; if the best
neighbor strictly improves on the current value the descent moves there,
otherwise the local optimum is reached and the descent stops early. -/
def descend {v : Type} [LinearOrder v] (o : Objective v) (me : Nat) :
    Nat → SGState v → List Nat → v → SGState v × Bool
  | 0, s, _, _ => (s, false)
  | h + 1, s, x, y =>
    let r := evalNbrs o me s (o.nbhd x) none
    if r.2.2 then (r.1, true)
    else
      match r.2.1 with
      | none => (r.1, false)
      | some (bx, b) => if b < y then descend o me h r.1 bx b else (r.1, false)

/-- Modelled from the spec: the Shoot-and-Go budget loop (`src/heur.py` is
not part of this tree): draw the next random point, evaluate it, descend
from it when `hmax > 0`, and repeat until a stop is triggered.  The
structural fuel equals the remaining budget, which bounds the number of
random restarts because every restart consumes at least one evaluation. -/
def sgLoop {v : Type} [LinearOrder v] (o : Objective v) (me hmax : Nat) :
    Nat → SGState v → Nat → SGState v
  | 0, s, _ => s
  | fuel + 1, s, k =>
    let r := evalOnce o me s (o.gen k)
    if r.2.2 then r.1
    else if 0 < hmax then
      let d := descend o me hmax r.1 (o.gen k) r.2.1
      if d.2 then d.1 else sgLoop o me hmax fuel d.1 (k + 1)
    else sgLoop o me hmax fuel r.1 (k + 1)

/-- Modelled from the spec: `ShootAndGo.search` — fresh state (no
evaluations consumed, no best yet), draws consumed from index `0`. -/
def search {v : Type} [LinearOrder v] (o : Objective v) (me hmax : Nat) : SGState v :=
  sgLoop o me hmax me ⟨0, none, []⟩ 0

/-- Result record of a search invocation: `{neval, best_x, best_y}`. -/
structure SGResult (v : Type) where
  neval : Nat
  best_x : Option (List Nat)
  best_y : Option v

/-- Modelled from the spec: the result record returned by `search()`. -/
def searchResult {v : Type} [LinearOrder v] (o : Objective v) (me hmax : Nat) : SGResult v :=
  ⟨(search o me hmax).neval, (search o me hmax).best.map Prod.fst,
    (search o me hmax).best.map Prod.snd⟩

/-- Pure random shooting: the budget loop with no descent at all. -/
def randomLoop {v : Type} [LinearOrder v] (o : Objective v) (me : Nat) :
    Nat → SGState v → Nat → SGState v
  | 0, s, _ => s
  | fuel + 1, s, k =>
    let r := evalOnce o me s (o.gen k)
    if r.2.2 then r.1 else randomLoop o me fuel r.1 (k + 1)

/-- Pure random shooting from a fresh state. -/
def randomSearch {v : Type} [LinearOrder v] (o : Objective v) (me : Nat) : SGState v :=
  randomLoop o me me ⟨0, none, []⟩ 0

/-- A degenerate objective over `Nat` whose every point already attains the
known optimum value; it makes the search stop after its very first
evaluation. -/
def flatObjective : Objective Nat :=
  ⟨fun _ => [], fun _ => 0, fun _ => [], 0⟩

/-- A toy objective over `Nat` whose values never reach the known optimum;
the search on it always runs to the full evaluation budget. -/
def unitObjective : Objective Nat :=
  ⟨fun _ => [], fun _ => 1, fun _ => [], 0⟩

/-- Well-formedness of the ghost `best_y` history: it is a `≤`-chain when
read newest-first (so non-increasing in time) and its newest entry is the
current best value. -/
def TraceOk {v : Type} [LinearOrder v] (s : SGState v) : Prop :=
  List.Chain' (fun a b => a ≤ b) s.trace ∧ s.best.map Prod.snd = s.trace.head?

end ShootAndGo

namespace TSPGrid

theorem perm_get_cons_eraseIdx : ∀ (l : List Nat) (i : Nat) (h : i < l.length),
    l.Perm (l.get ⟨i, h⟩ :: l.eraseIdx i) := by
  intro l
  induction l with
  | nil => intro i h; simp at h
  | cons a l ih =>
    intro i h
    cases i with
    | zero => simp
    | succ i =>
      have h' : i < l.length := Nat.lt_of_succ_lt_succ (by simpa using h)
      have step := (ih i h').cons a
      simpa using step.trans (List.Perm.swap _ _ _)

theorem decodeFrom_isSome_iff : ∀ (x rem : List Nat),
    (decodeFrom x rem).isSome = true ↔ ValidFor x rem.length
  | [], rem => by simp [decodeFrom, ValidFor]
  | i :: xs, rem => by
    have ih := decodeFrom_isSome_iff xs (rem.eraseIdx i)
    by_cases h : i < rem.length
    · have hlen : (rem.eraseIdx i).length = rem.length - 1 := by
        rw [List.length_eraseIdx]; simp [h]
      rw [hlen] at ih
      simp only [decodeFrom, dif_pos h, ValidFor]
      cases hd : decodeFrom xs (rem.eraseIdx i) with
      | none => rw [hd] at ih; simp at ih; simp [ih, h]
      | some t => rw [hd] at ih; simp at ih; simp [ih, h]
    · simp only [decodeFrom, dif_neg h, ValidFor]
      simp [h]

theorem decodeFrom_perm : ∀ (x rem t : List Nat), x.length = rem.length →
    decodeFrom x rem = some t → t.Perm rem
  | [], rem, t => by
    intro hlen ht
    simp [decodeFrom] at ht
    subst ht
    have hr : rem = [] := List.length_eq_zero.mp hlen.symm
    simp [hr]
  | i :: xs, rem, t => by
    intro hlen ht
    rw [decodeFrom] at ht
    split at ht
    case isTrue h =>
      cases hd : decodeFrom xs (rem.eraseIdx i) with
      | none => rw [hd] at ht; simp at ht
      | some t' =>
        rw [hd] at ht
        simp only [Option.some.injEq] at ht
        have hlen' : xs.length = (rem.eraseIdx i).length := by
          rw [List.length_eraseIdx]
          simp only [h, if_true]
          simp at hlen
          omega
        have hperm := decodeFrom_perm xs (rem.eraseIdx i) t' hlen' hd
        rw [← ht]
        exact (hperm.cons _).trans (perm_get_cons_eraseIdx rem i h).symm
    case isFalse h => simp at ht

theorem decodeFrom_inj : ∀ (x₁ x₂ rem t : List Nat), rem.Nodup →
    decodeFrom x₁ rem = some t → decodeFrom x₂ rem = some t → x₁ = x₂
  | [], [], _, _ => by intros; rfl
  | [], j :: ys, rem, t => by
    intro hnd h1 h2
    simp [decodeFrom] at h1
    rw [decodeFrom] at h2
    split at h2
    case isTrue h =>
      cases hd : decodeFrom ys (rem.eraseIdx j) with
      | none => rw [hd] at h2; simp at h2
      | some t' => rw [hd] at h2; simp at h2; simp [h1] at h2
    case isFalse h => simp at h2
  | i :: xs, [], rem, t => by
    intro hnd h1 h2
    simp [decodeFrom] at h2
    rw [decodeFrom] at h1
    split at h1
    case isTrue h =>
      cases hd : decodeFrom xs (rem.eraseIdx i) with
      | none => rw [hd] at h1; simp at h1
      | some t' => rw [hd] at h1; simp at h1; simp [h2] at h1
    case isFalse h => simp at h1
  | i :: xs, j :: ys, rem, t => by
    intro hnd h1 h2
    rw [decodeFrom] at h1 h2
    split at h1
    case isFalse h => simp at h1
    case isTrue hi =>
      split at h2
      case isFalse h => simp at h2
      case isTrue hj =>
        cases hd1 : decodeFrom xs (rem.eraseIdx i) with
        | none => rw [hd1] at h1; simp at h1
        | some t1 =>
          cases hd2 : decodeFrom ys (rem.eraseIdx j) with
          | none => rw [hd2] at h2; simp at h2
          | some t2 =>
            rw [hd1] at h1; rw [hd2] at h2
            simp only [Option.some.injEq] at h1 h2
            rw [← h2] at h1
            have hhead : rem.get ⟨i, hi⟩ = rem.get ⟨j, hj⟩ := by
              simpa using congrArg List.head? h1
            have hij : i = j := by
              have := (List.Nodup.get_inj_iff hnd).mp hhead
              simpa using this
            subst hij
            have htail : t1 = t2 := by
              simpa using congrArg List.tail h1
            subst htail
            have := decodeFrom_inj xs ys (rem.eraseIdx i) t1
              (hnd.sublist (List.eraseIdx_sublist rem i)) hd1 hd2
            rw [this]

theorem decodeFrom_surj : ∀ (t rem : List Nat), rem.Nodup → t.Perm rem →
    ∃ x, x.length = rem.length ∧ ValidFor x rem.length ∧ decodeFrom x rem = some t
  | [], rem => by
    intro hnd hp
    have hr : rem = [] := hp.symm.eq_nil
    subst hr
    exact ⟨[], rfl, trivial, rfl⟩
  | c :: t', rem => by
    intro hnd hp
    have hc : c ∈ rem := hp.subset (List.mem_cons_self c t')
    obtain ⟨⟨i, hi⟩, hget⟩ := List.mem_iff_get.mp hc
    have heq : rem.eraseIdx i |>.Perm (rem.erase c) := by
      have h1 : rem.Perm (c :: rem.eraseIdx i) := by
        have := perm_get_cons_eraseIdx rem i hi
        rwa [hget] at this
      have h2 : rem.Perm (c :: rem.erase c) := List.perm_cons_erase hc
      exact (h1.symm.trans h2).cons_inv
    have ht' : t'.Perm (rem.eraseIdx i) := by
      have := (List.cons_perm_iff_perm_erase.mp hp).2
      exact this.trans heq.symm
    have hnd' : (rem.eraseIdx i).Nodup := hnd.sublist (List.eraseIdx_sublist rem i)
    obtain ⟨x', hxlen, hxvf, hxdec⟩ := decodeFrom_surj t' (rem.eraseIdx i) hnd' ht'
    have hlen' : (rem.eraseIdx i).length = rem.length - 1 := by
      rw [List.length_eraseIdx]; simp [hi]
    refine ⟨i :: x', ?_, ⟨hi, ?_⟩, ?_⟩
    · simp [hxlen, hlen']; omega
    · rw [← hlen']; exact hxvf
    · rw [decodeFrom, dif_pos hi, hxdec, hget]

theorem validFor_iff_bounds : ∀ (x : List Nat) (m : Nat),
    ValidFor x m ↔ ∀ i < x.length, x.getD i 0 + i < m
  | [], m => by simp [ValidFor]
  | a :: xs, m => by
    have ih := validFor_iff_bounds xs (m - 1)
    simp only [ValidFor, ih]
    constructor
    · rintro ⟨h1, h2⟩ i hi
      cases i with
      | zero => simpa using h1
      | succ j =>
        have hb := h2 j (by simpa using hi)
        simp only [List.getD_cons_succ]
        omega
    · intro h
      have h0 : a < m := by simpa using h 0 (by simp)
      refine ⟨h0, fun j hj => ?_⟩
      have hb := h (j + 1) (by simpa using hj)
      simp only [List.getD_cons_succ] at hb
      omega

theorem validX_iff (n : Nat) (hn : 1 ≤ n) (x : List Nat) :
    validX n x ↔ (x.length = n - 1 ∧ ValidFor x (n - 1)) := by
  unfold validX
  rw [validFor_iff_bounds]
  constructor <;> rintro ⟨h1, h2⟩ <;> refine ⟨h1, fun i hi => ?_⟩
  · have hb := h2 i hi; omega
  · have hb := h2 i hi; omega

theorem range_eq_cons_range' (n : Nat) (hn : 1 ≤ n) :
    List.range n = 0 :: List.range' 1 (n - 1) := by
  obtain ⟨m, rfl⟩ := Nat.exists_eq_add_of_le hn
  rw [List.range_eq_range', Nat.add_comm 1 m]
  simp [List.range'_succ]

theorem decode_valid_some (n : Nat) (hn : 1 ≤ n) (x : List Nat) (hx : validX n x) :
    ∃ t, decode n x = some t ∧ t.Perm (List.range n) ∧ t.head? = some 0 := by
  obtain ⟨hlen, hvf⟩ := (validX_iff n hn x).mp hx
  have hrlen : (List.range' 1 (n - 1)).length = n - 1 := List.length_range' 1 1 (n - 1)
  have hsome : (decodeFrom x (List.range' 1 (n - 1))).isSome = true := by
    rw [decodeFrom_isSome_iff, hrlen]; exact hvf
  obtain ⟨t0, ht0⟩ := Option.isSome_iff_exists.mp hsome
  have hperm : t0.Perm (List.range' 1 (n - 1)) :=
    decodeFrom_perm x _ t0 (by rw [hrlen, hlen]) ht0
  refine ⟨0 :: t0, ?_, ?_, rfl⟩
  · rw [decode, if_pos hlen, ht0]; rfl
  · rw [range_eq_cons_range' n hn]
    exact hperm.cons 0

theorem decode_some_inj (n : Nat) (x₁ x₂ t : List Nat)
    (d₁ : decode n x₁ = some t) (d₂ : decode n x₂ = some t) : x₁ = x₂ := by
  rw [decode] at d₁ d₂
  split at d₁
  case isFalse => simp at d₁
  case isTrue h₁ =>
    split at d₂
    case isFalse => simp at d₂
    case isTrue h₂ =>
      cases e₁ : decodeFrom x₁ (List.range' 1 (n - 1)) with
      | none => rw [e₁] at d₁; simp at d₁
      | some t₁ =>
        cases e₂ : decodeFrom x₂ (List.range' 1 (n - 1)) with
        | none => rw [e₂] at d₂; simp at d₂
        | some t₂ =>
          rw [e₁] at d₁; rw [e₂] at d₂
          simp only [Option.map_some', Option.some.injEq] at d₁ d₂
          have ht : t₁ = t₂ := by
            have := d₁.trans d₂.symm
            simpa using this
          subst ht
          exact decodeFrom_inj x₁ x₂ _ t₁ (List.nodup_range' _ _) e₁ e₂

theorem decode_surj_tour (n : Nat) (hn : 1 ≤ n) (t : List Nat)
    (hp : t.Perm (List.range n)) (hh : t.head? = some 0) :
    ∃ x, validX n x ∧ decode n x = some t := by
  cases t with
  | nil => simp at hh
  | cons c t' =>
    have hc : c = 0 := by simpa using hh
    subst hc
    have hp' : t'.Perm (List.range' 1 (n - 1)) := by
      rw [range_eq_cons_range' n hn] at hp
      exact hp.cons_inv
    obtain ⟨x, hxlen, hxvf, hxdec⟩ :=
      decodeFrom_surj t' (List.range' 1 (n - 1)) (List.nodup_range' _ _) hp'
    have hrlen : (List.range' 1 (n - 1)).length = n - 1 := List.length_range' 1 1 (n - 1)
    refine ⟨x, ?_, ?_⟩
    · rw [validX_iff n hn]
      exact ⟨by rw [hxlen, hrlen], by rw [← hrlen]; exact hxvf⟩
    · rw [decode, if_pos (by rw [hxlen, hrlen]), hxdec]; rfl

theorem allVectors_length : ∀ m, (allVectors m).length = m.factorial
  | 0 => rfl
  | m + 1 => by
    simp only [allVectors]
    rw [List.length_flatMap]
    have hconst : List.map (List.length ∘ fun v => (allVectors m).map fun y => v :: y)
        (List.range (m + 1)) = List.map (fun _ => m.factorial) (List.range (m + 1)) := by
      apply List.map_congr_left
      intro v hv
      simp [allVectors_length m]
    rw [hconst, List.map_const', List.sum_replicate, smul_eq_mul]
    simp [Nat.factorial_succ]

theorem mem_allVectors : ∀ (m : Nat) (x : List Nat),
    x ∈ allVectors m ↔ (x.length = m ∧ ValidFor x m)
  | 0, x => by
    cases x <;> simp [allVectors, ValidFor]
  | m + 1, x => by
    cases x with
    | nil =>
      simp only [allVectors, List.mem_flatMap, List.mem_map, List.mem_range]
      constructor
      · rintro ⟨v, hv, y, hy, hcons⟩; cases hcons
      · rintro ⟨hlen, hvf⟩; simp at hlen
    | cons a y =>
      have ih := mem_allVectors m y
      simp only [allVectors, List.mem_flatMap, List.mem_map, List.mem_range]
      constructor
      · rintro ⟨v, hv, y', hy', hcons⟩
        obtain ⟨rfl, rfl⟩ : v = a ∧ y' = y := by
          injection hcons with h1 h2
          exact ⟨h1, h2⟩
        obtain ⟨hlen, hvf⟩ := ih.mp hy'
        exact ⟨by simp [hlen], ⟨hv, by simpa using hvf⟩⟩
      · rintro ⟨hlen, hva, hvf⟩
        refine ⟨a, hva, y, ih.mpr ⟨by simpa using hlen, by simpa using hvf⟩, rfl⟩

theorem allVectors_nodup : ∀ m, (allVectors m).Nodup
  | 0 => by simp [allVectors]
  | m + 1 => by
    simp only [allVectors]
    rw [List.nodup_flatMap]
    constructor
    · intro v hv
      exact (allVectors_nodup m).map fun y₁ y₂ h => by injection h
    · refine List.Pairwise.imp ?_ (List.pairwise_lt_range (m + 1))
      intro a b hab x hxa hxb
      obtain ⟨y₁, hy₁, rfl⟩ := List.mem_map.mp hxa
      obtain ⟨y₂, hy₂, he⟩ := List.mem_map.mp hxb
      have : b = a := by injection he
      omega

theorem filterMap_length_all_some {f : List Nat → Option (List Nat)} :
    ∀ (l : List (List Nat)), (∀ x ∈ l, (f x).isSome = true) →
      (l.filterMap f).length = l.length
  | [], _ => rfl
  | a :: l, h => by
    have ha : (f a).isSome = true := h a (List.mem_cons_self a l)
    obtain ⟨b, hb⟩ := Option.isSome_iff_exists.mp ha
    rw [List.filterMap_cons, hb]
    simp only [List.length_cons]
    rw [filterMap_length_all_some l fun x hx => h x (List.mem_cons_of_mem a hx)]

theorem filterMap_nodup_inj {f : List Nat → Option (List Nat)}
    (hinj : ∀ x₁ x₂ t, f x₁ = some t → f x₂ = some t → x₁ = x₂) :
    ∀ (l : List (List Nat)), l.Nodup → (l.filterMap f).Nodup
  | [], _ => by simp
  | a :: l, hnd => by
    have hnd' : l.Nodup := hnd.of_cons
    have ha : a ∉ l := by simp at hnd; exact hnd.1
    rw [List.filterMap_cons]
    cases hb : f a with
    | none => exact filterMap_nodup_inj hinj l hnd'
    | some b =>
      refine List.Nodup.cons ?_ (filterMap_nodup_inj hinj l hnd')
      intro hmem
      obtain ⟨x, hx, hfx⟩ := List.mem_filterMap.mp hmem
      have : x = a := hinj x a b hfx hb
      subst this
      exact ha hx

theorem mem_allVectors_validX (n : Nat) (hn : 1 ≤ n) (x : List Nat) :
    x ∈ allVectors (n - 1) ↔ validX n x := by
  rw [mem_allVectors, validX_iff n hn]

theorem toursList_length (n : Nat) (hn : 1 ≤ n) :
    ((allVectors (n - 1)).filterMap (decode n)).length = (n - 1).factorial := by
  rw [filterMap_length_all_some, allVectors_length]
  intro x hx
  obtain ⟨t, ht, _⟩ := decode_valid_some n hn x ((mem_allVectors_validX n hn x).mp hx)
  rw [ht]; rfl

theorem toursList_nodup (n : Nat) :
    ((allVectors (n - 1)).filterMap (decode n)).Nodup :=
  filterMap_nodup_inj (fun x₁ x₂ t h1 h2 => decode_some_inj n x₁ x₂ t h1 h2) _
    (allVectors_nodup _)

theorem toursList_mem (n : Nat) (hn : 1 ≤ n) (t : List Nat) :
    t ∈ (allVectors (n - 1)).filterMap (decode n) ↔
      (t.Perm (List.range n) ∧ t.head? = some 0) := by
  rw [List.mem_filterMap]
  constructor
  · rintro ⟨x, hx, hdec⟩
    have hv := (mem_allVectors_validX n hn x).mp hx
    obtain ⟨t', ht', hperm, hhead⟩ := decode_valid_some n hn x hv
    have heq : t' = t := by rw [ht'] at hdec; exact Option.some.inj hdec
    subst heq
    exact ⟨hperm, hhead⟩
  · rintro ⟨hperm, hhead⟩
    obtain ⟨x, hv, hdec⟩ := decode_surj_tour n hn t hperm hhead
    exact ⟨x, (mem_allVectors_validX n hn x).mpr hv, hdec⟩

theorem getD_set_self (x : List Nat) (i v : Nat) (hi : i < x.length) :
    (x.set i v).getD i 0 = v := by
  rw [List.getD_eq_getElem _ _ (by simpa using hi)]
  exact List.getElem_set_self _

theorem getD_set_ne (x : List Nat) (i j v : Nat) (hj : j < x.length) (hne : i ≠ j) :
    (x.set i v).getD j 0 = x.getD j 0 := by
  rw [List.getD_eq_getElem _ _ (by simpa using hj), List.getElem_set_ne hne,
    List.getD_eq_getElem _ _ hj]

theorem set_validX (n : Nat) (x : List Nat) (hx : validX n x) (i v : Nat)
    (hi : i < x.length) (hv : v + i + 2 ≤ n) : validX n (x.set i v) := by
  obtain ⟨hlen, hb⟩ := hx
  refine ⟨by simpa using hlen, fun j hj => ?_⟩
  rw [List.length_set] at hj
  by_cases hij : i = j
  · subst hij; rw [getD_set_self x i v hi]; exact hv
  · rw [getD_set_ne x i j v hj hij]; exact hb j hj

theorem nbhd_some_validX (n : Nat) (x : List Nat) (d : Nat) (L : List (List Nat))
    (h : get_neighborhood n x d = some L) : validX n x := by
  rw [get_neighborhood] at h
  split at h
  · assumption
  · simp at h

theorem nbhd_some_eq (n : Nat) (x : List Nat) (d : Nat) (L : List (List Nat))
    (h : get_neighborhood n x d = some L) :
    L = (List.range x.length).flatMap fun i =>
      (if d ≤ x.getD i 0 then [x.set i (x.getD i 0 - d)] else []) ++
      (if x.getD i 0 + d + i + 2 ≤ n then [x.set i (x.getD i 0 + d)] else []) := by
  rw [get_neighborhood] at h
  split at h
  · exact (Option.some.inj h).symm
  · simp at h

theorem flatMap_sublist_of_forall {f g : Nat → List (List Nat)} :
    ∀ (l : List Nat), (∀ a ∈ l, (f a).Sublist (g a)) →
      (l.flatMap f).Sublist (l.flatMap g)
  | [], _ => by simp
  | a :: l, h => by
    simp only [List.flatMap_cons]
    exact (h a (List.mem_cons_self a l)).append
      (flatMap_sublist_of_forall l fun b hb => h b (List.mem_cons_of_mem a hb))

theorem guard_pair_sublist {c1 c2 : Prop} [Decidable c1] [Decidable c2] (a b : List Nat) :
    ((if c1 then [a] else []) ++ (if c2 then [b] else [])).Sublist [a, b] := by
  split_ifs <;> simp

theorem generate_point_length (n : Nat) (u : Nat → Nat) :
    (generate_point n u).length = n - 1 := by
  simp [generate_point]

theorem generate_point_getD (n : Nat) (u : Nat → Nat) (i : Nat) (hi : i < n - 1) :
    (generate_point n u).getD i 0 = u i % (n - 1 - i) := by
  unfold generate_point
  rw [List.getD_eq_getElem _ _ (by simpa using hi)]
  simp

theorem generate_point_validX (n : Nat) (u : Nat → Nat) :
    validX n (generate_point n u) := by
  refine ⟨generate_point_length n u, fun i hi => ?_⟩
  rw [generate_point_length] at hi
  rw [generate_point_getD n u i hi]
  have hm : u i % (n - 1 - i) < n - 1 - i := Nat.mod_lt _ (by omega)
  omega

theorem generate_point_surj (n : Nat) (x : List Nat) (hx : validX n x) :
    generate_point n (fun i => x.getD i 0) = x := by
  obtain ⟨hlen, hb⟩ := hx
  apply List.ext_getElem (by rw [generate_point_length, hlen])
  intro i h1 h2
  have hi : i < n - 1 := by rwa [generate_point_length] at h1
  have hxi : x.getD i 0 = x[i] := List.getD_eq_getElem x 0 h2
  have hbd : x.getD i 0 + i + 2 ≤ n := hb i h2
  have hgd := generate_point_getD n (fun j => x.getD j 0) i hi
  rw [List.getD_eq_getElem _ 0 h1] at hgd
  have hlt : x.getD i 0 < n - 1 - i := by omega
  have hgd2 : (generate_point n fun j => x.getD j 0)[i] = x.getD i 0 % (n - 1 - i) := hgd
  rw [hgd2, Nat.mod_eq_of_lt hlt]
  exact hxi

theorem decode_eq_none_iff (n : Nat) (hn : 1 ≤ n) (x : List Nat) :
    decode n x = none ↔ ¬ validX n x := by
  have hrlen : (List.range' 1 (n - 1)).length = n - 1 := List.length_range' 1 1 (n - 1)
  rw [decode, validX_iff n hn]
  by_cases hlen : x.length = n - 1
  · rw [if_pos hlen, Option.map_eq_none']
    constructor
    · intro h hval
      have hs := (decodeFrom_isSome_iff x (List.range' 1 (n - 1))).mpr
        (by rw [hrlen]; exact hval.2)
      rw [h] at hs; simp at hs
    · intro h
      cases hd : decodeFrom x (List.range' 1 (n - 1)) with
      | none => rfl
      | some t =>
        exfalso
        apply h
        refine ⟨hlen, ?_⟩
        have hs := (decodeFrom_isSome_iff x (List.range' 1 (n - 1))).mp (by rw [hd]; rfl)
        rwa [hrlen] at hs
  · rw [if_neg hlen]
    simp [hlen]

theorem evaluate_eq_none_iff (A B : Nat) (hn : 1 ≤ A * B) (x : List Nat) :
    evaluate A B x = none ↔ ¬ validX (A * B) x := by
  rw [evaluate, Option.map_eq_none', decode_eq_none_iff _ hn]

theorem nbhd_eq_none_iff (n : Nat) (x : List Nat) (d : Nat) :
    get_neighborhood n x d = none ↔ ¬ validX n x := by
  rw [get_neighborhood]
  split_ifs with h <;> simp [h]

theorem coords_inj (B c1 c2 : Nat) (h1 : c1 / B = c2 / B) (h2 : c1 % B = c2 % B) :
    c1 = c2 := by
  rw [← Nat.div_add_mod c1 B, ← Nat.div_add_mod c2 B, h1, h2]

theorem int_sq_sum_pos {a b : Int} (h : ¬(a = 0 ∧ b = 0)) : 1 ≤ a ^ 2 + b ^ 2 := by
  rcases Classical.em (a = 0) with ha | ha
  · have hb : b ≠ 0 := fun hb => h ⟨ha, hb⟩
    nlinarith [Int.one_le_abs hb, sq_abs b, sq_nonneg a, abs_nonneg b]
  · nlinarith [Int.one_le_abs ha, sq_abs a, sq_nonneg b, abs_nonneg a]

theorem cityDist_ge_one (B c1 c2 : Nat) (hne : c1 ≠ c2) : 1 ≤ cityDist B c1 c2 := by
  rw [cityDist, Real.one_le_sqrt]
  have h1 : (1 : Int) ≤ dist2 B c1 c2 := by
    rw [dist2]
    apply int_sq_sum_pos
    rintro ⟨ha, hb⟩
    apply hne
    apply coords_inj B c1 c2 <;> omega
  exact_mod_cast h1

theorem pathLen_ge_length (B : Nat) : ∀ (l : List Nat) (c : Nat),
    List.Chain' Ne (c :: l) → (l.length : ℝ) ≤ pathLen B c l
  | [], c, _ => by simp [pathLen]
  | c2 :: rest, c, hch => by
    have h1 : c ≠ c2 := (List.chain'_cons.mp hch).1
    have hrest : List.Chain' Ne (c2 :: rest) := (List.chain'_cons.mp hch).2
    have ih := pathLen_ge_length B rest c2 hrest
    have hd := cityDist_ge_one B c c2 h1
    simp only [pathLen, List.length_cons]
    push_cast
    linarith

theorem chain'_ne_closed (c : Nat) (rest : List Nat) (hnd : (c :: rest).Nodup)
    (hne : rest ≠ []) : List.Chain' Ne (c :: (rest ++ [c])) := by
  have h1 : List.Chain' Ne (c :: rest) := List.Pairwise.chain' hnd
  rw [show c :: (rest ++ [c]) = (c :: rest) ++ [c] by simp]
  rw [List.chain'_append]
  refine ⟨h1, List.chain'_singleton c, ?_⟩
  intro y hy z hz
  have hz0 : c = z := by simpa using hz
  subst hz0
  have hcn : c ∉ rest := (List.nodup_cons.mp hnd).1
  cases rest with
  | nil => exact absurd rfl hne
  | cons r rs =>
    rw [List.getLast?_cons_cons] at hy
    have hyr : y ∈ r :: rs := List.mem_of_mem_getLast? hy
    intro he
    rw [he] at hyr
    exact hcn hyr

theorem tourLen_ge_card (B n : Nat) (hn : 2 ≤ n) (t : List Nat)
    (hp : t.Perm (List.range n)) : (n : ℝ) ≤ tourLen B t := by
  have hnd : t.Nodup := hp.nodup_iff.mpr (List.nodup_range n)
  have hlen : t.length = n := by rw [hp.length_eq, List.length_range]
  cases t with
  | nil => simp at hlen; omega
  | cons c rest =>
    have hrne : rest ≠ [] := by
      intro h
      rw [h] at hlen
      simp at hlen
      omega
    have hch := chain'_ne_closed c rest hnd hrne
    have hb := pathLen_ge_length B (rest ++ [c]) c hch
    have hlen2 : (rest ++ [c]).length = n := by
      simp at hlen ⊢
      omega
    rw [tourLen]
    rw [hlen2] at hb
    exact hb

theorem evaluate_lower_bound (A B : Nat) (hn : 2 ≤ A * B) (x : List Nat)
    (hx : validX (A * B) x) :
    ∃ v, evaluate A B x = some v ∧ ((A * B : Nat) : ℝ) ≤ v := by
  obtain ⟨t, ht, hperm, _⟩ := decode_valid_some (A * B) (by omega) x hx
  refine ⟨tourLen B t, ?_, tourLen_ge_card B (A * B) hn t hperm⟩
  rw [evaluate, ht]
  rfl

theorem evaluate_opt32 : evaluate 3 2 [0, 1, 2, 1, 0] = some 6 := by
  have hdec : decode (3 * 2) [0, 1, 2, 1, 0] = some [0, 1, 3, 5, 4, 2] := by decide
  rw [evaluate, hdec, Option.map_some']
  norm_num [tourLen, pathLen, cityDist, dist2]

theorem evaluate_sq22 : evaluate 2 2 [0, 1, 0] = some 4 := by
  have hdec : decode (2 * 2) [0, 1, 0] = some [0, 1, 3, 2] := by decide
  rw [evaluate, hdec, Option.map_some']
  norm_num [tourLen, pathLen, cityDist, dist2]

example : decode 6 [3, 2, 2, 0, 0] = some [0, 4, 3, 5, 1, 2] := by decide

example : get_neighborhood 6 [3, 2, 2, 0, 0] 1 =
    some [[2, 2, 2, 0, 0], [4, 2, 2, 0, 0], [3, 1, 2, 0, 0],
          [3, 3, 2, 0, 0], [3, 2, 1, 0, 0], [3, 2, 2, 1, 0]] := by decide

example : decode 4 [0, 1, 0] = some [0, 1, 3, 2] := by decide

example : decode 6 [0, 1, 2, 1, 0] = some [0, 1, 3, 5, 4, 2] := by decide

example : (allVectors 5).length = 120 := by decide

end TSPGrid


/-- C1: for every valid problem instance with dimensions `A, B` (`n = A·B`
cities) and every vector `x` of length `n-1` whose component `i` lies in
`[0, n-2-i]`, `decode x` is a permutation of `[0, n)` that starts with city
`0`; `decode` is injective on valid vectors, every tour starting at city
`0` is produced by some valid vector (hence, together with injectivity, by
exactly one), and the list of all reachable tours has exactly `(n-1)!`
pairwise-distinct entries. -/
theorem C1_decode_bijection (A B : Nat) (hA : 1 ≤ A) (hB : 1 ≤ B) :
    (∀ x, TSPGrid.validX (A * B) x →
      ∃ t, TSPGrid.decode (A * B) x = some t ∧ t.Perm (List.range (A * B)) ∧
        t.head? = some 0) ∧
    (∀ x₁ x₂ t, TSPGrid.validX (A * B) x₁ → TSPGrid.validX (A * B) x₂ →
      TSPGrid.decode (A * B) x₁ = some t → TSPGrid.decode (A * B) x₂ = some t →
      x₁ = x₂) ∧
    (∀ t, t.Perm (List.range (A * B)) → t.head? = some 0 →
      ∃ x, TSPGrid.validX (A * B) x ∧ TSPGrid.decode (A * B) x = some t) ∧
    ((TSPGrid.allVectors (A * B - 1)).filterMap (TSPGrid.decode (A * B))).length
      = (A * B - 1).factorial ∧
    ((TSPGrid.allVectors (A * B - 1)).filterMap (TSPGrid.decode (A * B))).Nodup ∧
    (∀ t, t ∈ (TSPGrid.allVectors (A * B - 1)).filterMap (TSPGrid.decode (A * B)) ↔
      (t.Perm (List.range (A * B)) ∧ t.head? = some 0)) := by
  have hn : 1 ≤ A * B := Nat.mul_pos hA hB
  exact ⟨fun x hx => TSPGrid.decode_valid_some _ hn x hx,
    fun x₁ x₂ t _ _ d₁ d₂ => TSPGrid.decode_some_inj _ x₁ x₂ t d₁ d₂,
    fun t hp hh => TSPGrid.decode_surj_tour _ hn t hp hh,
    TSPGrid.toursList_length _ hn,
    TSPGrid.toursList_nodup _,
    fun t => TSPGrid.toursList_mem _ hn t⟩

/-- Witness for C1 at the notebook instance `A = 3`, `B = 2` and the recorded
input `x = [3, 2, 2, 0, 0]`. -/
theorem C1_decode_bijection_witness :
    ∃ t, TSPGrid.decode (3 * 2) [3, 2, 2, 0, 0] = some t ∧
      t.Perm (List.range (3 * 2)) ∧ t.head? = some 0 :=
  (C1_decode_bijection 3 2 (by decide) (by decide)).1 [3, 2, 2, 0, 0] (by decide)


theorem sqrt_four_eq : Real.sqrt 4 = 2 := by
  rw [show (4 : ℝ) = 2 ^ 2 by norm_num, Real.sqrt_sq (by norm_num : (0:ℝ) ≤ 2)]

theorem sqrt_two_bounds : 1.41421356 ≤ Real.sqrt 2 ∧ Real.sqrt 2 ≤ 1.41421357 := by
  have h := Real.sq_sqrt (by norm_num : (0:ℝ) ≤ 2)
  have hnn := Real.sqrt_nonneg 2
  constructor <;> nlinarith [h, hnn]

theorem tourLen_notebook_tour : TSPGrid.tourLen 2 [0, 4, 3, 5, 1, 2] = 6 + 2 * Real.sqrt 2 := by
  simp only [TSPGrid.tourLen, List.cons_append, List.nil_append,
    TSPGrid.pathLen, TSPGrid.cityDist]
  norm_num [TSPGrid.dist2]
  rw [sqrt_four_eq]
  ring

/-- C2: for the instance `(3, 2)` and the recorded input `x = [3, 2, 2, 0, 0]`,
`decode x` returns exactly the tour `[0, 4, 3, 5, 1, 2]` and `evaluate x`
returns the closed-tour Euclidean length `6 + 2·√2 = 8.82842712…`, within
tolerance `1e-6` of the printed value `8.82842712475`. -/
theorem C2_literal_decode_evaluate :
    TSPGrid.decode (3 * 2) [3, 2, 2, 0, 0] = some [0, 4, 3, 5, 1, 2] ∧
    TSPGrid.evaluate 3 2 [3, 2, 2, 0, 0] = some (6 + 2 * Real.sqrt 2) ∧
    |6 + 2 * Real.sqrt 2 - 8.82842712475| ≤ 1e-6 := by
  have hdec : TSPGrid.decode (3 * 2) [3, 2, 2, 0, 0] = some [0, 4, 3, 5, 1, 2] := by decide
  refine ⟨hdec, ?_, ?_⟩
  · unfold TSPGrid.evaluate
    rw [hdec, Option.map_some', tourLen_notebook_tour]
  · rw [abs_le]
    obtain ⟨hl, hu⟩ := sqrt_two_bounds
    constructor <;> nlinarith [hl, hu]


/-- C3: for the instance `(3, 2)`, `x = [3, 2, 2, 0, 0]` and `d = 1`,
`get_neighborhood` returns exactly the six recorded neighbors in order; and
in general every returned neighbor differs from `x` in exactly one position
by exactly `d`, lies within the per-position domain bounds, and the
returned sequence is the ascending-position, decrement-then-increment
candidate enumeration with out-of-bound candidates discarded (a sublist of
the canonical ordered candidate list), of length at most `2·(n-1)`. -/
theorem C3_neighborhood :
    (TSPGrid.get_neighborhood 6 [3, 2, 2, 0, 0] 1 =
      some [[2, 2, 2, 0, 0], [4, 2, 2, 0, 0], [3, 1, 2, 0, 0],
            [3, 3, 2, 0, 0], [3, 2, 1, 0, 0], [3, 2, 2, 1, 0]]) ∧
    (∀ n x d L, 1 ≤ d → TSPGrid.get_neighborhood n x d = some L →
      (∀ y ∈ L, TSPGrid.validX n y ∧ ∃ i < x.length,
        (y.getD i 0 + d = x.getD i 0 ∨ y.getD i 0 = x.getD i 0 + d) ∧
        y.getD i 0 ≠ x.getD i 0 ∧
        ∀ j < x.length, j ≠ i → y.getD j 0 = x.getD j 0) ∧
      L.length ≤ 2 * (n - 1) ∧
      L.Sublist ((List.range x.length).flatMap fun i =>
        [x.set i (x.getD i 0 - d), x.set i (x.getD i 0 + d)])) := by
  refine ⟨by decide, fun n x d L hd hL => ⟨fun y hy => ?_, ?_, ?_⟩⟩
  · have hvx := TSPGrid.nbhd_some_validX n x d L hL
    rw [TSPGrid.nbhd_some_eq n x d L hL] at hy
    obtain ⟨i, hir, hmem⟩ := List.mem_flatMap.mp hy
    have hi : i < x.length := List.mem_range.mp hir
    have hbi : x.getD i 0 + i + 2 ≤ n := hvx.2 i hi
    rcases List.mem_append.mp hmem with hdown | hup
    · have hc : d ≤ x.getD i 0 := by
        by_contra hc; rw [if_neg hc] at hdown; simp at hdown
      rw [if_pos hc] at hdown
      have hy' : y = x.set i (x.getD i 0 - d) := by simpa using hdown
      subst hy'
      refine ⟨TSPGrid.set_validX n x hvx i _ hi (by omega), i, hi, ?_, ?_, ?_⟩
      · left; rw [TSPGrid.getD_set_self x i _ hi]; omega
      · rw [TSPGrid.getD_set_self x i _ hi]; omega
      · intro j hj hne; exact TSPGrid.getD_set_ne x i j _ hj (fun h => hne h.symm)
    · have hc : x.getD i 0 + d + i + 2 ≤ n := by
        by_contra hc; rw [if_neg hc] at hup; simp at hup
      rw [if_pos hc] at hup
      have hy' : y = x.set i (x.getD i 0 + d) := by simpa using hup
      subst hy'
      refine ⟨TSPGrid.set_validX n x hvx i _ hi (by omega), i, hi, ?_, ?_, ?_⟩
      · right; rw [TSPGrid.getD_set_self x i _ hi]
      · rw [TSPGrid.getD_set_self x i _ hi]; omega
      · intro j hj hne; exact TSPGrid.getD_set_ne x i j _ hj (fun h => hne h.symm)
  · have hvx := TSPGrid.nbhd_some_validX n x d L hL
    rw [TSPGrid.nbhd_some_eq n x d L hL, List.length_flatMap]
    have hb : ∀ m ∈ List.map (List.length ∘ fun i =>
        (if d ≤ x.getD i 0 then [x.set i (x.getD i 0 - d)] else []) ++
        (if x.getD i 0 + d + i + 2 ≤ n then [x.set i (x.getD i 0 + d)] else []))
        (List.range x.length), m ≤ 2 := by
      intro m hm
      obtain ⟨i, _, rfl⟩ := List.mem_map.mp hm
      simp only [Function.comp_apply, List.length_append]
      split_ifs <;> simp
    calc (List.map _ (List.range x.length)).sum
        ≤ (List.map (List.length ∘ fun i =>
            (if d ≤ x.getD i 0 then [x.set i (x.getD i 0 - d)] else []) ++
            (if x.getD i 0 + d + i + 2 ≤ n then [x.set i (x.getD i 0 + d)] else []))
            (List.range x.length)).length • 2 := List.sum_le_card_nsmul _ 2 hb
      _ ≤ 2 * (n - 1) := by
          rw [List.length_map, List.length_range, smul_eq_mul, hvx.1]; omega
  · rw [TSPGrid.nbhd_some_eq n x d L hL]
    exact TSPGrid.flatMap_sublist_of_forall (List.range x.length)
      fun i _ => TSPGrid.guard_pair_sublist _ _

/-- Witness for C3's general part at the notebook instance and input. -/
theorem C3_neighborhood_witness :
    (∀ y ∈ [[2, 2, 2, 0, 0], [4, 2, 2, 0, 0], [3, 1, 2, 0, 0],
            [3, 3, 2, 0, 0], [3, 2, 1, 0, 0], [3, 2, 2, 1, 0]],
      TSPGrid.validX 6 y ∧ ∃ i < [3, 2, 2, 0, 0].length,
        (y.getD i 0 + 1 = [3, 2, 2, 0, 0].getD i 0 ∨
         y.getD i 0 = [3, 2, 2, 0, 0].getD i 0 + 1) ∧
        y.getD i 0 ≠ [3, 2, 2, 0, 0].getD i 0 ∧
        ∀ j < [3, 2, 2, 0, 0].length, j ≠ i →
          y.getD j 0 = [3, 2, 2, 0, 0].getD j 0) ∧
    [[2, 2, 2, 0, 0], [4, 2, 2, 0, 0], [3, 1, 2, 0, 0],
     [3, 3, 2, 0, 0], [3, 2, 1, 0, 0], [3, 2, 2, 1, 0]].length ≤ 2 * (6 - 1) ∧
    List.Sublist
      [[2, 2, 2, 0, 0], [4, 2, 2, 0, 0], [3, 1, 2, 0, 0],
       [3, 3, 2, 0, 0], [3, 2, 1, 0, 0], [3, 2, 2, 1, 0]]
      ((List.range [3, 2, 2, 0, 0].length).flatMap fun i =>
        [[3, 2, 2, 0, 0].set i ([3, 2, 2, 0, 0].getD i 0 - 1),
         [3, 2, 2, 0, 0].set i ([3, 2, 2, 0, 0].getD i 0 + 1)]) :=
  C3_neighborhood.2 6 [3, 2, 2, 0, 0] 1
    [[2, 2, 2, 0, 0], [4, 2, 2, 0, 0], [3, 1, 2, 0, 0],
     [3, 3, 2, 0, 0], [3, 2, 1, 0, 0], [3, 2, 2, 1, 0]]
    (by decide) (by decide)


/-- C7: for every problem with `n` cities and every random source,
`generate_point` returns a vector of length `n-1` whose component `i` lies
in the inclusive range `[0, n-2-i]` (a valid encoded solution); the uniform
per-component draw is modelled as the mod-reduction of the raw uniform
source into that range, under which every valid vector is produced by the
source equal to that vector. -/
theorem C7_generate_point_domain (n : Nat) (u : Nat → Nat) :
    (TSPGrid.generate_point n u).length = n - 1 ∧
    TSPGrid.validX n (TSPGrid.generate_point n u) ∧
    (∀ x, TSPGrid.validX n x → TSPGrid.generate_point n (fun i => x.getD i 0) = x) :=
  ⟨TSPGrid.generate_point_length n u, TSPGrid.generate_point_validX n u,
    fun x hx => TSPGrid.generate_point_surj n x hx⟩

/-- Witness for C7 at `n = 6` and the notebook vector `[3, 2, 2, 0, 0]`. -/
theorem C7_generate_point_domain_witness :
    TSPGrid.validX 6 (TSPGrid.generate_point 6 (fun k => k + 7)) ∧
    TSPGrid.generate_point 6 (fun i => [3, 2, 2, 0, 0].getD i 0) = [3, 2, 2, 0, 0] :=
  ⟨(C7_generate_point_domain 6 (fun k => k + 7)).2.1,
   (C7_generate_point_domain 6 (fun k => k + 7)).2.2 [3, 2, 2, 0, 0] (by decide)⟩

/-- C8: a wrong-length or out-of-domain input is rejected exactly: each of
`decode`, `evaluate` and `get_neighborhood` returns the out-of-range
failure `none` precisely when `x` violates the domain contract, and never
silently wraps or clamps (a `some` result is produced only for valid `x`);
the operations are pure functions, so a failed call cannot modify the
problem instance or any search state. -/
theorem C8_invalid_rejected (A B : Nat) (hA : 1 ≤ A) (hB : 1 ≤ B)
    (x : List Nat) (d : Nat) :
    (TSPGrid.decode (A * B) x = none ↔ ¬ TSPGrid.validX (A * B) x) ∧
    (TSPGrid.evaluate A B x = none ↔ ¬ TSPGrid.validX (A * B) x) ∧
    (TSPGrid.get_neighborhood (A * B) x d = none ↔ ¬ TSPGrid.validX (A * B) x) :=
  ⟨TSPGrid.decode_eq_none_iff _ (Nat.mul_pos hA hB) x,
   TSPGrid.evaluate_eq_none_iff A B (Nat.mul_pos hA hB) x,
   TSPGrid.nbhd_eq_none_iff _ x d⟩

/-- Witness for C8 at the `(3, 2)` instance and the out-of-domain input
`[5, 0, 0, 0, 0]` (component `0` exceeds `n - 2 = 4`). -/
theorem C8_invalid_rejected_witness :
    (TSPGrid.decode (3 * 2) [5, 0, 0, 0, 0] = none ↔
      ¬ TSPGrid.validX (3 * 2) [5, 0, 0, 0, 0]) ∧
    (TSPGrid.evaluate 3 2 [5, 0, 0, 0, 0] = none ↔
      ¬ TSPGrid.validX (3 * 2) [5, 0, 0, 0, 0]) ∧
    (TSPGrid.get_neighborhood (3 * 2) [5, 0, 0, 0, 0] 1 = none ↔
      ¬ TSPGrid.validX (3 * 2) [5, 0, 0, 0, 0]) :=
  C8_invalid_rejected 3 2 (by decide) (by decide) [5, 0, 0, 0, 0] 1


/-- C10 counterexample: the claim's closed-form optimum asserts that for a
grid with both dimensions even the minimal closed-tour length equals
`A·B + √2 - 1`; but on the `(2, 2)` instance the valid encoding `[0, 1, 0]`
evaluates to `4 = A·B`, strictly below `4 + √2 - 1`, so the even/even
branch of the formula does not give the minimum of `evaluate`. -/
theorem C10_optimum_formula_counterexample :
    TSPGrid.validX (2 * 2) [0, 1, 0] ∧
    TSPGrid.evaluate 2 2 [0, 1, 0] = some 4 ∧
    (4 : ℝ) < 2 * 2 + Real.sqrt 2 - 1 := by
  refine ⟨by decide, TSPGrid.evaluate_sq22, ?_⟩
  have hl := sqrt_two_bounds.1
  nlinarith [hl]

/-- C10 (amended): for the 3×2 grid instance the minimum of `evaluate` over
all valid encoded solutions is exactly `6.0 = A·B`, attained by the valid
encoding `[0, 1, 2, 1, 0]`; in general `A·B` is a lower bound on `evaluate`
at every valid encoding of any instance with at least two cities.  The
documented closed-form optimum (`A·B + √2 - 1` when both `A` and `B` are
even, `A·B` otherwise) is not the minimum of `evaluate` as stated: its
parity condition is refuted at `(2, 2)`. -/
theorem C10_grid_optimum_amended (A B : Nat) (hn : 2 ≤ A * B) :
    (∀ x, TSPGrid.validX (A * B) x →
      ∃ v, TSPGrid.evaluate A B x = some v ∧ ((A * B : Nat) : ℝ) ≤ v) ∧
    TSPGrid.validX (3 * 2) [0, 1, 2, 1, 0] ∧
    TSPGrid.evaluate 3 2 [0, 1, 2, 1, 0] = some 6 :=
  ⟨fun x hx => TSPGrid.evaluate_lower_bound A B hn x hx,
   by decide, TSPGrid.evaluate_opt32⟩

/-- Witness for C10's amended statement at the `(3, 2)` instance and the
notebook input `[3, 2, 2, 0, 0]`. -/
theorem C10_grid_optimum_amended_witness :
    ∃ v, TSPGrid.evaluate 3 2 [3, 2, 2, 0, 0] = some v ∧ ((3 * 2 : Nat) : ℝ) ≤ v :=
  (C10_grid_optimum_amended 3 2 (by decide)).1 [3, 2, 2, 0, 0] (by decide)


namespace ShootAndGo

theorem evalOnce_neval {v : Type} [LinearOrder v] (o : Objective v) (me : Nat)
    (s : SGState v) (x : List Nat) : (evalOnce o me s x).1.neval = s.neval + 1 := rfl

theorem evalOnce_cont {v : Type} [LinearOrder v] (o : Objective v) (me : Nat)
    (s : SGState v) (x : List Nat) (h : (evalOnce o me s x).2.2 = false) :
    s.neval + 1 < me := by
  unfold evalOnce at h
  simp only [Bool.or_eq_false_iff, decide_eq_false_iff_not] at h
  have h2 := h.2
  omega

theorem evalNbrs_budget {v : Type} [LinearOrder v] (o : Objective v) (me : Nat) :
    ∀ (l : List (List Nat)) (s : SGState v) (acc : Option (List Nat × v)),
      s.neval < me →
      (evalNbrs o me s l acc).1.neval ≤ me ∧
      ((evalNbrs o me s l acc).2.2 = false → (evalNbrs o me s l acc).1.neval < me)
  | [], s, acc, h => by
    simp only [evalNbrs]
    exact ⟨by omega, fun _ => h⟩
  | xn :: rest, s, acc, h => by
    simp only [evalNbrs]
    by_cases hst : (evalOnce o me s xn).2.2 = true
    · simp only [hst, if_true]
      refine ⟨by rw [evalOnce_neval]; omega, fun hc => by simp at hc⟩
    · rw [Bool.not_eq_true] at hst
      simp only [hst, Bool.false_eq_true, if_false]
      exact evalNbrs_budget o me rest (evalOnce o me s xn).1 _
        (by rw [evalOnce_neval]; exact evalOnce_cont o me s xn hst)

theorem descend_budget {v : Type} [LinearOrder v] (o : Objective v) (me : Nat) :
    ∀ (h : Nat) (s : SGState v) (x : List Nat) (y : v), s.neval < me →
      (descend o me h s x y).1.neval ≤ me ∧
      ((descend o me h s x y).2 = false → (descend o me h s x y).1.neval < me)
  | 0, s, x, y, hs => by
    simp only [descend]
    exact ⟨by omega, fun _ => hs⟩
  | h + 1, s, x, y, hs => by
    simp only [descend]
    have hn := evalNbrs_budget o me (o.nbhd x) s none hs
    by_cases hst : (evalNbrs o me s (o.nbhd x) none).2.2 = true
    · simp only [hst, if_true]
      exact ⟨hn.1, fun hc => by simp at hc⟩
    · rw [Bool.not_eq_true] at hst
      simp only [hst, Bool.false_eq_true, if_false]
      have hlt := hn.2 hst
      cases hacc : (evalNbrs o me s (o.nbhd x) none).2.1 with
      | none => exact ⟨hn.1, fun _ => hlt⟩
      | some p =>
        obtain ⟨bx, b⟩ := p
        by_cases hb : b < y
        · simp only [hb, if_true]
          exact descend_budget o me h (evalNbrs o me s (o.nbhd x) none).1 bx b hlt
        · simp only [hb, if_false]
          exact ⟨hn.1, fun _ => hlt⟩

theorem sgLoop_budget {v : Type} [LinearOrder v] (o : Objective v) (me hmax : Nat) :
    ∀ (fuel : Nat) (s : SGState v) (k : Nat), s.neval < me →
      (sgLoop o me hmax fuel s k).neval ≤ me
  | 0, s, k, hs => by
    simp only [sgLoop]
    omega
  | fuel + 1, s, k, hs => by
    simp only [sgLoop]
    by_cases hst : (evalOnce o me s (o.gen k)).2.2 = true
    · simp only [hst, if_true]
      rw [evalOnce_neval]
      omega
    · rw [Bool.not_eq_true] at hst
      have hc := evalOnce_cont o me s (o.gen k) hst
      simp only [hst, Bool.false_eq_true, if_false]
      by_cases hh : 0 < hmax
      · simp only [hh, if_true]
        have hd := descend_budget o me hmax (evalOnce o me s (o.gen k)).1 (o.gen k)
          (evalOnce o me s (o.gen k)).2.1 (by rw [evalOnce_neval]; omega)
        by_cases hds : (descend o me hmax (evalOnce o me s (o.gen k)).1 (o.gen k)
            (evalOnce o me s (o.gen k)).2.1).2 = true
        · simp only [hds, if_true]
          exact hd.1
        · rw [Bool.not_eq_true] at hds
          simp only [hds, Bool.false_eq_true, if_false]
          exact sgLoop_budget o me hmax fuel _ (k + 1) (hd.2 hds)
      · simp only [hh, if_false]
        exact sgLoop_budget o me hmax fuel _ (k + 1) (by rw [evalOnce_neval]; omega)

theorem updBest_snd_le {v : Type} [LinearOrder v] (b p : List Nat × v) :
    (updBest (some b) p).2 ≤ b.2 := by
  obtain ⟨bx, bv⟩ := b
  obtain ⟨x, y⟩ := p
  simp only [updBest]
  split_ifs with h
  · exact le_of_lt h
  · exact le_rfl

theorem evalOnce_traceOk {v : Type} [LinearOrder v] (o : Objective v) (me : Nat)
    (s : SGState v) (x : List Nat) (h : TraceOk s) : TraceOk (evalOnce o me s x).1 := by
  obtain ⟨hch, hhd⟩ := h
  refine ⟨?_, rfl⟩
  show List.Chain' _ ((updBest s.best (x, o.eval x)).2 :: s.trace)
  rw [List.chain'_cons']
  refine ⟨?_, hch⟩
  intro z hz
  cases hb : s.best with
  | none =>
    rw [hb] at hhd
    simp only [Option.map_none'] at hhd
    rw [← hhd] at hz
    simp at hz
  | some p =>
    rw [hb] at hhd
    simp only [Option.map_some'] at hhd
    rw [← hhd] at hz
    simp only [Option.mem_def, Option.some.injEq] at hz
    rw [← hz]
    exact updBest_snd_le p (x, o.eval x)

theorem evalNbrs_traceOk {v : Type} [LinearOrder v] (o : Objective v) (me : Nat) :
    ∀ (l : List (List Nat)) (s : SGState v) (acc : Option (List Nat × v)),
      TraceOk s → TraceOk (evalNbrs o me s l acc).1
  | [], s, acc, h => h
  | xn :: rest, s, acc, h => by
    simp only [evalNbrs]
    by_cases hst : (evalOnce o me s xn).2.2 = true
    · simp only [hst, if_true]
      exact evalOnce_traceOk o me s xn h
    · rw [Bool.not_eq_true] at hst
      simp only [hst, Bool.false_eq_true, if_false]
      exact evalNbrs_traceOk o me rest (evalOnce o me s xn).1 _
        (evalOnce_traceOk o me s xn h)

theorem descend_traceOk {v : Type} [LinearOrder v] (o : Objective v) (me : Nat) :
    ∀ (h : Nat) (s : SGState v) (x : List Nat) (y : v),
      TraceOk s → TraceOk (descend o me h s x y).1
  | 0, s, x, y, hs => hs
  | h + 1, s, x, y, hs => by
    simp only [descend]
    have hn := evalNbrs_traceOk o me (o.nbhd x) s none hs
    by_cases hst : (evalNbrs o me s (o.nbhd x) none).2.2 = true
    · simp only [hst, if_true]
      exact hn
    · rw [Bool.not_eq_true] at hst
      simp only [hst, Bool.false_eq_true, if_false]
      cases hacc : (evalNbrs o me s (o.nbhd x) none).2.1 with
      | none => exact hn
      | some p =>
        obtain ⟨bx, b⟩ := p
        by_cases hb : b < y
        · simp only [hb, if_true]
          exact descend_traceOk o me h (evalNbrs o me s (o.nbhd x) none).1 bx b hn
        · simp only [hb, if_false]
          exact hn

theorem sgLoop_traceOk {v : Type} [LinearOrder v] (o : Objective v) (me hmax : Nat) :
    ∀ (fuel : Nat) (s : SGState v) (k : Nat), TraceOk s →
      TraceOk (sgLoop o me hmax fuel s k)
  | 0, s, k, hs => hs
  | fuel + 1, s, k, hs => by
    simp only [sgLoop]
    have h1 := evalOnce_traceOk o me s (o.gen k) hs
    by_cases hst : (evalOnce o me s (o.gen k)).2.2 = true
    · simp only [hst, if_true]
      exact h1
    · rw [Bool.not_eq_true] at hst
      simp only [hst, Bool.false_eq_true, if_false]
      by_cases hh : 0 < hmax
      · simp only [hh, if_true]
        have hd := descend_traceOk o me hmax (evalOnce o me s (o.gen k)).1 (o.gen k)
          (evalOnce o me s (o.gen k)).2.1 h1
        by_cases hds : (descend o me hmax (evalOnce o me s (o.gen k)).1 (o.gen k)
            (evalOnce o me s (o.gen k)).2.1).2 = true
        · simp only [hds, if_true]
          exact hd
        · rw [Bool.not_eq_true] at hds
          simp only [hds, Bool.false_eq_true, if_false]
          exact sgLoop_traceOk o me hmax fuel _ (k + 1) hd
      · simp only [hh, if_false]
        exact sgLoop_traceOk o me hmax fuel _ (k + 1) h1

end ShootAndGo


namespace ShootAndGo

theorem sgLoop_hmax_zero {v : Type} [LinearOrder v] (o : Objective v) (me : Nat) :
    ∀ (fuel : Nat) (s : SGState v) (k : Nat),
      sgLoop o me 0 fuel s k = randomLoop o me fuel s k
  | 0, s, k => rfl
  | fuel + 1, s, k => by
    simp only [sgLoop, randomLoop]
    by_cases hst : (evalOnce o me s (o.gen k)).2.2 = true
    · simp only [hst, if_true]
    · rw [Bool.not_eq_true] at hst
      simp only [hst, Bool.false_eq_true, if_false, Nat.lt_irrefl]
      exact sgLoop_hmax_zero o me fuel _ (k + 1)

theorem randomLoop_full_budget {v : Type} [LinearOrder v] (o : Objective v) (me : Nat) :
    ∀ (fuel : Nat) (s : SGState v) (k : Nat),
      s.neval + fuel = me →
      (∀ j, k ≤ j → j < k + fuel → o.fstar < o.eval (o.gen j)) →
      (randomLoop o me fuel s k).neval = me
  | 0, s, k, hf, _ => by
    simp only [randomLoop]
    omega
  | fuel + 1, s, k, hf, hno => by
    simp only [randomLoop]
    have hy : o.fstar < o.eval (o.gen k) := hno k le_rfl (by omega)
    by_cases hst : (evalOnce o me s (o.gen k)).2.2 = true
    · have hbud : me ≤ s.neval + 1 := by
        unfold evalOnce at hst
        simp only [Bool.or_eq_true, decide_eq_true_eq] at hst
        rcases hst with h | h
        · exact absurd h (not_le.mpr hy)
        · exact h
      simp only [hst, if_true]
      rw [evalOnce_neval]
      omega
    · rw [Bool.not_eq_true] at hst
      simp only [hst, Bool.false_eq_true, if_false]
      apply randomLoop_full_budget o me fuel _ (k + 1)
      · rw [evalOnce_neval]
        omega
      · intro j hj1 hj2
        exact hno j (by omega) (by omega)

theorem foldl_updBest_char {v : Type} [LinearOrder v] :
    ∀ (l : List (List Nat × v)) (p0 p : List Nat × v),
      l.foldl (fun acc q => some (updBest acc q)) (some p0) = some p →
      (p = p0 ∧ ∀ q ∈ l, p0.2 ≤ q.2) ∨
      (∃ pre q post, l = pre ++ q :: post ∧ p = q ∧ q.2 < p0.2 ∧
        (∀ r ∈ pre, q.2 < r.2) ∧ (∀ r ∈ post, q.2 ≤ r.2))
  | [], p0, p => by
    intro h
    simp only [List.foldl_nil, Option.some.injEq] at h
    exact Or.inl ⟨h.symm, by simp⟩
  | q1 :: rest, p0, p => by
    intro h
    simp only [List.foldl_cons] at h
    by_cases hq : q1.2 < p0.2
    · have hupd : updBest (some p0) q1 = q1 := by
        obtain ⟨a, b⟩ := p0
        obtain ⟨c, d⟩ := q1
        simp only [updBest]
        rw [if_pos hq]
      rw [hupd] at h
      rcases foldl_updBest_char rest q1 p h with ⟨hp, hall⟩ | ⟨pre, q, post, hsplit, hp, hlt, hpre, hpost⟩
      · refine Or.inr ⟨[], q1, rest, by simp, hp, hq, by simp, hall⟩
      · refine Or.inr ⟨q1 :: pre, q, post, by rw [hsplit]; rfl, hp, lt_trans hlt hq, ?_, hpost⟩
        intro r hr
        rcases List.mem_cons.mp hr with hr1 | hr2
        · rw [hr1]; exact hlt
        · exact hpre r hr2
    · have hupd : updBest (some p0) q1 = p0 := by
        obtain ⟨a, b⟩ := p0
        obtain ⟨c, d⟩ := q1
        simp only [updBest]
        rw [if_neg hq]
      rw [hupd] at h
      have hle : p0.2 ≤ q1.2 := le_of_not_lt hq
      rcases foldl_updBest_char rest p0 p h with ⟨hp, hall⟩ | ⟨pre, q, post, hsplit, hp, hlt, hpre, hpost⟩
      · refine Or.inl ⟨hp, fun q hq2 => ?_⟩
        rcases List.mem_cons.mp hq2 with h1 | h2
        · rw [h1]; exact hle
        · exact hall q h2
      · refine Or.inr ⟨q1 :: pre, q, post, by rw [hsplit]; rfl, hp, hlt, ?_, hpost⟩
        intro r hr
        rcases List.mem_cons.mp hr with hr1 | hr2
        · rw [hr1]; exact lt_of_lt_of_le hlt hle
        · exact hpre r hr2

theorem selectFirst_char {v : Type} [LinearOrder v] (l : List (List Nat × v))
    (p : List Nat × v) (h : selectFirst l = some p) :
    ∃ pre post, l = pre ++ p :: post ∧
      (∀ r ∈ pre, p.2 < r.2) ∧ (∀ r ∈ post, p.2 ≤ r.2) := by
  cases l with
  | nil => simp [selectFirst] at h
  | cons q1 rest =>
    rw [selectFirst, List.foldl_cons] at h
    have hupd : updBest none q1 = q1 := rfl
    rw [hupd] at h
    rcases foldl_updBest_char rest q1 p h with ⟨hp, hall⟩ | ⟨pre, q, post, hsplit, hp, hlt, hpre, hpost⟩
    · subst hp
      exact ⟨[], rest, by simp, by simp, hall⟩
    · subst hp
      refine ⟨q1 :: pre, post, by rw [hsplit]; rfl, ?_, hpost⟩
      intro r hr
      rcases List.mem_cons.mp hr with hr1 | hr2
      · rw [hr1]; exact hlt
      · exact hpre r hr2

end ShootAndGo


/-- C4 counterexample: the claim asserts that with `hmax = 0` the returned
record always satisfies `neval = maxeval` exactly; but the search also
stops early when a drawn point reaches the known optimum `fstar`.  For
`flatObjective` (every point attains the optimum), `hmax = 0` and the
positive budget `maxeval = 2`, the search stops after one evaluation, so
`neval = 1 ≠ 2`.  The notebook records the same behavior: `neval = 140`
with `maxeval = 1000` and `hmax = 0`. -/
theorem C4_hmax_zero_counterexample :
    (ShootAndGo.searchResult ShootAndGo.flatObjective 2 0).neval = 1 ∧ (1 : Nat) ≠ 2 :=
  ⟨rfl, by decide⟩

/-- C4 (amended): with `hmax = 0` no descent steps occur — the search
coincides with pure random shooting, every evaluation being of an
independently drawn point of the random stream — and `neval ≤ maxeval`
always; `neval = maxeval` exactly whenever no drawn point within the budget
attains the known optimum `fstar` (otherwise the search stops early at the
optimum with a smaller `neval`). -/
theorem C4_hmax_zero_amended {v : Type} [LinearOrder v] (o : ShootAndGo.Objective v)
    (me : Nat) (hme : 1 ≤ me) :
    ShootAndGo.search o me 0 = ShootAndGo.randomSearch o me ∧
    (ShootAndGo.searchResult o me 0).neval ≤ me ∧
    ((∀ j < me, o.fstar < o.eval (o.gen j)) →
      (ShootAndGo.searchResult o me 0).neval = me) := by
  refine ⟨ShootAndGo.sgLoop_hmax_zero o me me ⟨0, none, []⟩ 0,
    ShootAndGo.sgLoop_budget o me 0 me ⟨0, none, []⟩ 0 (by show 0 < me; omega), ?_⟩
  intro hno
  show (ShootAndGo.sgLoop o me 0 me ⟨0, none, []⟩ 0).neval = me
  rw [ShootAndGo.sgLoop_hmax_zero o me me ⟨0, none, []⟩ 0]
  exact ShootAndGo.randomLoop_full_budget o me me ⟨0, none, []⟩ 0 (by show 0 + me = me; omega)
    (fun j hj1 hj2 => hno j (by omega))

/-- Witness for C4's amended statement: on `unitObjective` (values never
reach the optimum) with `maxeval = 3`, the search runs to the full budget. -/
theorem C4_hmax_zero_amended_witness :
    ShootAndGo.search ShootAndGo.unitObjective 3 0 =
      ShootAndGo.randomSearch ShootAndGo.unitObjective 3 ∧
    (ShootAndGo.searchResult ShootAndGo.unitObjective 3 0).neval ≤ 3 ∧
    ((∀ j < 3, ShootAndGo.unitObjective.fstar <
        ShootAndGo.unitObjective.eval (ShootAndGo.unitObjective.gen j)) →
      (ShootAndGo.searchResult ShootAndGo.unitObjective 3 0).neval = 3) :=
  C4_hmax_zero_amended ShootAndGo.unitObjective 3 (by decide)

/-- C5: for every objective, every positive `maxeval` and every `hmax`, the
`neval` field of the result record never exceeds `maxeval`: every
evaluation raises the stop flag as soon as the budget is reached, and all
loops of the search (restart loop, descent rounds, mid-round neighbor
scans) terminate immediately once that flag is raised. -/
theorem C5_budget_respected {v : Type} [LinearOrder v] (o : ShootAndGo.Objective v)
    (me hmax : Nat) (hme : 1 ≤ me) :
    (ShootAndGo.searchResult o me hmax).neval ≤ me :=
  ShootAndGo.sgLoop_budget o me hmax me ⟨0, none, []⟩ 0 (by show 0 < me; omega)

/-- Witness for C5 on a concrete objective, budget and depth. -/
theorem C5_budget_respected_witness :
    1 ≤ 3 ∧ (ShootAndGo.searchResult ShootAndGo.unitObjective 3 2).neval ≤ 3 :=
  ⟨by decide, C5_budget_respected ShootAndGo.unitObjective 3 2 (by decide)⟩

/-- C6: within any single run of the search, the tracked best objective
value is non-increasing over the sequence of evaluations: the recorded
per-evaluation history of `best_y` (newest entry first) is a `≤`-chain, and
the final `best_y` is its newest entry. -/
theorem C6_best_monotone {v : Type} [LinearOrder v] (o : ShootAndGo.Objective v)
    (me hmax : Nat) :
    List.Chain' (fun a b => a ≤ b) (ShootAndGo.search o me hmax).trace ∧
    (ShootAndGo.search o me hmax).best.map Prod.snd =
      (ShootAndGo.search o me hmax).trace.head? :=
  ShootAndGo.sgLoop_traceOk o me hmax me ⟨0, none, []⟩ 0 ⟨List.chain'_nil, rfl⟩

/-- C9: the search is deterministic given a fixed seed and fixed inputs:
two runs over objectives with identical random streams, evaluation
functions, neighborhood generators and optimum values, and with the same
`maxeval` and `hmax`, return identical result records (the model has no
other input, and draws are consumed in a fixed indexed order); and
tie-breaking in neighbor selection takes the first-encountered minimizer in
generation order: whenever the `updBest` fold used by the descent selects a
candidate, every earlier candidate is strictly worse and every later one is
no better. -/
theorem C9_deterministic_tiebreak {v : Type} [LinearOrder v]
    (o₁ o₂ : ShootAndGo.Objective v) (me hmax : Nat)
    (hg : ∀ k, o₁.gen k = o₂.gen k) (he : ∀ x, o₁.eval x = o₂.eval x)
    (hn : ∀ x, o₁.nbhd x = o₂.nbhd x) (hf : o₁.fstar = o₂.fstar) :
    ShootAndGo.searchResult o₁ me hmax = ShootAndGo.searchResult o₂ me hmax ∧
    (∀ (l : List (List Nat × v)) (p : List Nat × v),
      ShootAndGo.selectFirst l = some p →
      ∃ pre post, l = pre ++ p :: post ∧
        (∀ r ∈ pre, p.2 < r.2) ∧ (∀ r ∈ post, p.2 ≤ r.2)) := by
  have ho : o₁ = o₂ := by
    obtain ⟨g1, e1, n1, f1⟩ := o₁
    obtain ⟨g2, e2, n2, f2⟩ := o₂
    simp only at hg he hn hf
    congr 1
    · exact funext hg
    · exact funext he
    · exact funext hn
  exact ⟨by rw [ho], fun l p h => ShootAndGo.selectFirst_char l p h⟩

/-- Witness for C9 at a concrete objective and parameters. -/
theorem C9_deterministic_tiebreak_witness :
    ShootAndGo.searchResult ShootAndGo.unitObjective 3 1 =
      ShootAndGo.searchResult ShootAndGo.unitObjective 3 1 ∧
    (∀ (l : List (List Nat × Nat)) (p : List Nat × Nat),
      ShootAndGo.selectFirst l = some p →
      ∃ pre post, l = pre ++ p :: post ∧
        (∀ r ∈ pre, p.2 < r.2) ∧ (∀ r ∈ post, p.2 ≤ r.2)) :=
  C9_deterministic_tiebreak ShootAndGo.unitObjective ShootAndGo.unitObjective 3 1
    (fun _ => rfl) (fun _ => rfl) (fun _ => rfl) rfl
